import Mathlib

/-!
# Verification of the `keyboard` interception/decision engine

Shallow embedding of the core of the `keyboard` Python library
(`keyboard/__init__.py`, `keyboard/_keyboard_event.py`): the three-valued
decision type, the `_KeyboardListener` synchronous event processing with
suspension and replay, the hook variants (`_SimpleHook`, `_KeyHook`,
`_HotkeyHook`), the hotkey transition-table construction, hotkey parsing,
and the `KeyboardEvent` wire serialization.

Conventions of the embedding:
* Python `int` scan codes and timestamps are Lean `Int`.
* Python sets of scan codes are `Finset Int`; where the source iterates a
  set (an unspecified order), the embedding iterates it in sorted order.
  None of the properties proved below depend on that order.
* Python dictionaries keyed by `KeyboardEvent` are association lists whose
  lookup uses the source's `KeyboardEvent.__eq__` (field comparison on
  event_type, time, device, scan_code and name), embedded as `pyEq`.
* The callback of a hook may return any Python value; only `ALLOW`,
  `SUSPEND` and `SUPPRESS` are meaningful, so callback results are
  embedded as `Option Decision` with `none` standing for any non-decision
  value.
* OS-level side effects (`_os_keyboard.press` / `_os_keyboard.release`,
  and the boolean verdict returned to the driver) are collected in an
  explicit emission trace.
-/

/-- The event type constants `KEY_DOWN = "down"` and `KEY_UP = "up"` from
`_keyboard_event.py`. -/
inductive EventType where
  | down
  | up
deriving DecidableEq

/-- The class `KeyboardEvent` from `_keyboard_event.py`: the fields set by
`KeyboardEvent.__init__`.  Timestamps and scan codes are `Int` (the tests
use negative scan codes for fake modifiers). -/
structure KeyboardEvent where
  event_type : EventType
  scan_code : Int
  name : Option String
  time : Int
  device : Option String
  modifiers : List String
  is_numpad : Option Bool
  char : String
deriving DecidableEq

/-- Embedding of `KeyboardEvent.__eq__`: equality used by Python for dictionary lookup
and list membership/removal.  It compares event_type, time, device,
scan_code and name, and ignores modifiers, is_numpad and char. -/
def pyEq (a b : KeyboardEvent) : Bool :=
  a.event_type = b.event_type ∧ a.time = b.time ∧ a.device = b.device ∧
    a.scan_code = b.scan_code ∧ a.name = b.name

/-- The `_Enum` decision values `ALLOW(0) < SUSPEND(1) < SUPPRESS(2)` from
`keyboard/__init__.py`. -/
inductive Decision where
  | ALLOW
  | SUSPEND
  | SUPPRESS
deriving DecidableEq, Fintype

open Decision

/-- The rank `_Enum.n`: the numeric rank used by `_Enum.__lt__`. -/
def Decision.n : Decision → Nat
  | ALLOW => 0
  | SUSPEND => 1
  | SUPPRESS => 2

/-- Python's binary `max` on `_Enum` values: keeps the current value unless
the new one is strictly greater (`__lt__` compares `n`). -/
def dmax (a b : Decision) : Decision :=
  if a.n < b.n then b else a

/-- Python `max(...)` over a generator of decisions, merged from the left
starting at `ALLOW`.  Since `ALLOW` is the least decision this agrees with
Python's `max` over any non-empty sequence of decisions. -/
def mergeDecisions (l : List Decision) : Decision :=
  l.foldl dmax ALLOW

/-- A decision map returned by `Hook.process_event`: a Python dict keyed by
events, embedded as an association list. -/
abbrev DecisionMap : Type := List (KeyboardEvent × Decision)

/-- Embedding of `decisions.get(event, ALLOW)`: dictionary lookup with default `ALLOW`,
using `KeyboardEvent.__eq__` for key comparison. -/
def dget (m : DecisionMap) (e : KeyboardEvent) : Decision :=
  match List.find? (fun p => pyEq p.1 e) m with
  | some p => p.2
  | none => ALLOW

/-- The merged decision for event `e` over the hook decision maps, as
computed at lines 386 and 421 of `keyboard/__init__.py`:
`max(decisions.get(event, ALLOW) for decisions in hooks_decisions)`, where
`hooks_decisions` is `[...] or [{}]` (an empty hook list contributes one
empty dict). -/
def mergeAt (outs : List DecisionMap) (e : KeyboardEvent) : Decision :=
  mergeDecisions ((if outs.isEmpty then [([] : DecisionMap)] else outs).map (fun m => dget m e))

/-- One observable effect on the OS: a synthetic `_os_keyboard.press` or
`_os_keyboard.release` call, or the current event being passed through
(the listener returning `True` to the driver's capture callback). -/
inductive Emission where
  | osPress (sc : Int)
  | osRelease (sc : Int)
  | passed (e : KeyboardEvent)
deriving DecidableEq

/-- The mutable state of `_KeyboardListener` relevant to synchronous
processing (`__init__`, lines 268-284): pressed-key sets, suspended event
pairs, the replay re-entrancy guard, and the async queue (embedded as the
list of events pushed so far). -/
structure ListenerState where
  physically_pressed_keys : Finset Int
  logically_pressed_keys : Finset Int
  active_modifiers : Finset Int
  suspended_event_pairs : List (KeyboardEvent × Finset Int)
  is_replaying : Bool
  async_events_queue : List KeyboardEvent
deriving DecidableEq

/-- The fresh state built by `_KeyboardListener.__init__`. -/
def initListenerState : ListenerState :=
  ⟨∅, ∅, ∅, [], false, []⟩

/-- Removal of the first tuple equal (by Python tuple equality, i.e.
`__eq__` on the event and set equality on the modifiers) to the given
pair: `self.suspended_event_pairs.remove((event, modifiers))`. -/
def removeFirstPair (l : List (KeyboardEvent × Finset Int)) (p : KeyboardEvent × Finset Int) :
    List (KeyboardEvent × Finset Int) :=
  match l with
  | [] => []
  | q :: rest =>
      if pyEq q.1 p.1 ∧ q.2 = p.2 then rest else q :: removeFirstPair rest p

/-- Iterating a Python set of scan codes.  The source's iteration order is
unspecified; the embedding uses ascending order.  (Stated via
`insertionSort`, which any permutation of the underlying multiset sorts to
the same list, so the lift is well defined and kernel-computable.) -/
def setList (s : Finset Int) : List Int :=
  Quot.liftOn s.val (fun l => List.insertionSort (· ≤ ·) l)
    (fun a b h =>
      List.eq_of_perm_of_sorted
        ((List.perm_insertionSort _ a).trans (h.trans
          (List.perm_insertionSort _ b).symm))
        (List.sorted_insertionSort _ a) (List.sorted_insertionSort _ b))

/-- The replay loop of `run_sync_hooks` (lines 384-412): resolve each
previously suspended `(event, modifiers)` pair against the merged hook
decisions; keep it on `SUSPEND`, drop it on `SUPPRESS`, and on `ALLOW`
adjust the temporary modifier state and re-inject the event through the
driver, then drop it.  Returns the remaining suspended pairs, the final
temporary modifier state, and the emissions made. -/
def resolveSuspended (hd : List DecisionMap)
    (pairs : List (KeyboardEvent × Finset Int)) (temp0 : Finset Int) :
    List (KeyboardEvent × Finset Int) × Finset Int × List Emission :=
  pairs.foldl
    (fun acc p =>
      let decision := mergeDecisions (hd.map (fun m => dget m p.1))
      match decision with
      | SUSPEND => acc
      | SUPPRESS => (removeFirstPair acc.1 p, acc.2.1, acc.2.2)
      | ALLOW =>
          let rels := setList (acc.2.1 \ p.2)
          let prs := setList (p.2 \ acc.2.1)
          let inj := if p.1.event_type = EventType.down
            then Emission.osPress p.1.scan_code else Emission.osRelease p.1.scan_code
          (removeFirstPair acc.1 p, p.2,
            acc.2.2 ++ rels.map Emission.osRelease ++ prs.map Emission.osPress ++ [inj]))
    (pairs, temp0, [])

/-- Embedding of `_KeyboardListener.run_sync_hooks` (lines 372-428), with the hook
decision maps `[hook.process_event(...) for hook in suppressing_hooks]`
supplied as the parameter `outs` (this also covers stateful hooks, whose
decision maps on a given call are some such list).  Returns the updated
listener state, the emissions made, and the `ALLOW`/`SUPPRESS` decision
returned to `process_sync_event`.  The `is_replaying` guard is set for the
duration of the replay loop and cleared at the end, so the resulting state
has it cleared. -/
def runSyncHooks (outs : List DecisionMap) (s : ListenerState) (event : KeyboardEvent) :
    ListenerState × List Emission × Decision :=
  let hd := if outs.isEmpty then [([] : DecisionMap)] else outs
  let r := resolveSuspended hd s.suspended_event_pairs s.active_modifiers
  let restore := (setList (s.active_modifiers \ r.2.1)).map Emission.osPress ++
    (setList (r.2.1 \ s.active_modifiers)).map Emission.osRelease
  let trace := r.2.2 ++ restore
  let s1 : ListenerState := { s with suspended_event_pairs := r.1, is_replaying := false }
  match mergeAt outs event with
  | SUSPEND =>
      ({ s1 with suspended_event_pairs := s1.suspended_event_pairs ++ [(event, s.active_modifiers)] },
        trace, SUPPRESS)
  | SUPPRESS => (s1, trace, SUPPRESS)
  | ALLOW => (s1, trace, ALLOW)

/-- The set of modifier scan codes (`_modifier_scan_codes`), a module-level
global in the source, passed explicitly. -/
abbrev ModifierScanCodes := Finset Int

/-- The state updates performed by `process_sync_event` before the hooks
run (lines 443-456): `PhysicallyPressed` and `ActiveModifiers` according
to the event type and whether the scan code is a modifier, and the push
onto the async queue. -/
def listenerPreUpdate (msc : ModifierScanCodes) (s : ListenerState) (event : KeyboardEvent) :
    ListenerState :=
  { s with
      physically_pressed_keys :=
        if event.event_type = EventType.down
          then insert event.scan_code s.physically_pressed_keys
          else s.physically_pressed_keys.erase event.scan_code
      active_modifiers :=
        if event.scan_code ∈ msc then
          (if event.event_type = EventType.down
            then insert event.scan_code s.active_modifiers
            else s.active_modifiers.erase event.scan_code)
        else s.active_modifiers
      async_events_queue := s.async_events_queue ++ [event] }

/-- Embedding of `_KeyboardListener.process_sync_event` (lines 430-466).  Returns the
updated state, the emissions (driver presses/releases plus the event being
passed through when the verdict is `True`), and the boolean verdict
returned to the driver.  Note that the final `if decision is ALLOW` block
updating `logically_pressed_keys` runs even on the `is_replaying`
short-circuit path. -/
def processSyncEvent (msc : ModifierScanCodes) (outs : List DecisionMap)
    (s : ListenerState) (event : KeyboardEvent) :
    ListenerState × List Emission × Bool :=
  let step :=
    if s.is_replaying then (s, ([] : List Emission), ALLOW)
    else runSyncHooks outs (listenerPreUpdate msc s event) event
  match step.2.2 with
  | ALLOW =>
      let log := if event.event_type = EventType.down
        then insert event.scan_code step.1.logically_pressed_keys
        else step.1.logically_pressed_keys.erase event.scan_code
      ({ step.1 with logically_pressed_keys := log }, step.2.1 ++ [Emission.passed event], true)
  | _ => (step.1, step.2.1, false)

/-- Feeding a finite sequence of events through `process_sync_event`, with
`outs i` the decision maps produced by the suppressing hooks on the `i`-th
call (abstracting arbitrary, possibly stateful, hooks).  Accumulates the
emission trace and the per-event boolean verdicts. -/
def processSyncSeq (msc : ModifierScanCodes) (outs : Nat → List DecisionMap) (i : Nat)
    (s : ListenerState) : List KeyboardEvent → ListenerState × List Emission × List Bool
  | [] => (s, [], [])
  | e :: rest =>
      let r := processSyncEvent msc (outs i) s e
      let rec' := processSyncSeq msc outs (i + 1) r.1 rest
      (rec'.1, r.2.1 ++ rec'.2.1, r.2.2 :: rec'.2.2)

/-! ## Hotkey data structures (`Key`, `Step`, `Hotkey`) -/

/-- The class `Key`: a labelled set of equivalent scan codes (`keyboard/__init__.py`,
lines 712-716).  The source asserts `scan_codes` is non-empty. -/
structure Key where
  label : Option String
  scan_codes : List Int
deriving DecidableEq

/-- The class `Step`: one chord of a hotkey, with the fields computed by
`Step.__init__` (lines 700-709). -/
structure Step where
  keys : List Key
  modifiers : List Key
  is_standard : Bool
  main_key : Option Key
deriving DecidableEq

/-- Embedding of `Step.__init__`: a key is a modifier when its first scan code is in
`_modifier_scan_codes` (`is_modifier(key.scan_codes[0])`); the step is
standard when exactly one key is not a modifier, and that key is the main
key.  `scan_codes[0]` is embedded as `headD 0`; the source asserts
non-emptiness of every `Key`. -/
def mkStep (msc : ModifierScanCodes) (keys : List Key) : Step :=
  let modifiers := keys.filter (fun k => k.scan_codes.headD 0 ∈ msc)
  let is_standard := keys.length = modifiers.length + 1
  { keys := keys, modifiers := modifiers, is_standard := is_standard,
    main_key := if is_standard then keys.find? (fun k => ¬(k.scan_codes.headD 0 ∈ msc)) else none }

/-- The class `Hotkey`: an ordered sequence of steps (lines 695-699). -/
structure Hotkey where
  steps : List Step
deriving DecidableEq

/-! ## The hotkey transition table (`build_hotkey_transition_table`) -/

/-- A chord key of the transition table: a tuple of scan codes. -/
abbrev Chord := List Int

/-- The transition table `transitions`: a `defaultdict(lambda: 0)` keyed by
`(state, chord)`, embedded as an association list where the most recent
write is first.  (Reading a missing key in a `defaultdict` inserts the
default `0`, which never changes the mapping, so reads are embedded as
pure lookups.) -/
abbrev TransTable := List ((Nat × Chord) × Nat)

/-- Reading `transitions[state, chord]`: most recent write, default `0`. -/
def tlookup (t : TransTable) (s : Nat) (c : Chord) : Nat :=
  match List.find? (fun ent => ent.1 = (s, c)) t with
  | some ent => ent.2
  | none => 0

/-- Writing `transitions[state, chord] = v`. -/
def twrite (t : TransTable) (s : Nat) (c : Chord) (v : Nat) : TransTable :=
  ((s, c), v) :: t

/-- The recursive helper
`get_final_state(sequence, state) = state if not sequence else
get_final_state(sequence[1:], transitions[state, sequence[0]])`. -/
def getFinalState (t : TransTable) : List Chord → Nat → Nat
  | [], st => st
  | c :: rest, st => getFinalState t rest (tlookup t st c)

/-- Embedding of `tuple(sorted(codes))`. -/
def sortChord (c : List Int) : Chord :=
  List.insertionSort (· ≤ ·) c

/-- Embedding of `itertools.product(*lists)` over lists of scan codes, in the order
`itertools` enumerates it (leftmost position varies slowest). -/
def prodLists : List (List Int) → List (List Int)
  | [] => [[]]
  | l :: ls => l.flatMap (fun x => (prodLists ls).map (fun r => x :: r))

/-- Deduplication keeping first occurrences: iterating `set(history)` in
the table construction (whose set iteration order is unspecified; the
embedding uses first-occurrence order, and the properties proved below do
not depend on it), and the `OrderedDict` trick at line 683. -/
def dedupKeepFirst {A : Type} [DecidableEq A] (l : List A) : List A :=
  l.foldl (fun acc x => if x ∈ acc then acc else acc ++ [x]) []

/-- The failure-link value for a wrong-but-possibly-overlapping input:
`max(get_final_state(history[j:] + [previous_inputs]) for j in
range(1, len(history)+1))`. -/
def overlapState (t : TransTable) (history : List Chord) (prev : Chord) : Nat :=
  ((List.range history.length).map
    (fun j => getFinalState t (history.drop (j + 1) ++ [prev]) 0)).foldl max 0

/-- The loop body of `build_hotkey_transition_table` (lines 578-589),
recursing over the steps with the running step index, table and history.
Note the source's quirk at line 589: `history.append(input_scan_codes)`
appends the (unsorted) *last* combination produced by the product loop,
not every combination. -/
def buildTableAux : Nat → List Step → TransTable → List Chord → TransTable
  | _, [], t, _ => t
  | i, step :: rest, t, history =>
      let t1 := (dedupKeepFirst history).foldl
        (fun tt prev => twrite tt i prev (overlapState tt history prev)) t
      let inputs := prodLists (step.keys.map Key.scan_codes)
      let t2 := inputs.foldl (fun tt ics => twrite tt i (sortChord ics) (i + 1)) t1
      buildTableAux (i + 1) rest t2 (history ++ [inputs.getLastD []])

/-- Embedding of `_HotkeyHook.build_hotkey_transition_table` (lines 568-591). -/
def build_hotkey_transition_table (hk : Hotkey) : TransTable :=
  buildTableAux 0 hk.steps [] []

/-! ## The hotkey hook (`_HotkeyHook.process_event`) -/

/-- The mutable per-hook state set up by `_HotkeyHook.__init__`
(lines 564-566). -/
structure HookState where
  state : Nat
  suspended_events : List KeyboardEvent
  scan_code_releases_to_suppress : Finset Int
deriving DecidableEq

/-- The initial hook state: `state = 0`, no suspended events, no pending
release suppressions. -/
def initHookState : HookState :=
  ⟨0, [], ∅⟩

/-- Embedding of `list.remove(event)`: removal of the first element equal to `event`
under `KeyboardEvent.__eq__`.  (The source raises if the element is
absent; in the one place this is used the element is always present.) -/
def removeFirstPyEq (l : List KeyboardEvent) (e : KeyboardEvent) : List KeyboardEvent :=
  match l with
  | [] => []
  | x :: rest => if pyEq x e then rest else x :: removeFirstPyEq rest e

/-- Embedding of `sorted(events, key=lambda e: e.time, reverse=True)`: Python's stable
descending sort by timestamp, embedded as the unique sort by
(time descending, original position ascending). -/
def sortByTimeDesc (l : List KeyboardEvent) : List KeyboardEvent :=
  (List.insertionSort
    (fun a b => b.2.time < a.2.time ∨ (a.2.time = b.2.time ∧ a.1 < b.1)) l.enum).map (fun p => p.2)

/-- Python `max(e.time for e in events)` over a non-empty list. -/
def maxTime (l : List KeyboardEvent) : Int :=
  match l.map (fun e => e.time) with
  | [] => 0
  | x :: rest => rest.foldl max x

/-- The timeout check at lines 616-618: with suspended events present and
`event.time - max(e.time for e in suspended) >= timeout`, force the state
to `0` and clear the suspended events; otherwise leave both unchanged. -/
def hotkeyTimeoutReset (timeout : Int) (e : KeyboardEvent) (st : Nat)
    (susp : List KeyboardEvent) : Nat × List KeyboardEvent :=
  if susp ≠ [] ∧ timeout ≤ e.time - maxTime susp then (0, []) else (st, susp)

/-- Embedding of `sum(1 if step.is_standard else len(step.keys) for step in
self.hotkey.steps[:self.state])`: the useful-press budget after a
transition. -/
def nUseful (hk : Hotkey) (st : Nat) : Int :=
  ((hk.steps.take st).map (fun s => if s.is_standard then (1 : Int) else s.keys.length)).sum

/-- The drop loop at lines 632-637: scan the suspended events from most
recent to oldest; once the useful-press budget is exhausted remove the
event from the suspended list; each KEY_DOWN decrements the budget. -/
def dropBeyondBudget (susp : List KeyboardEvent) (n0 : Int) : List KeyboardEvent :=
  ((sortByTimeDesc susp).foldl
    (fun acc e =>
      let l := if acc.2 ≤ 0 then removeFirstPyEq acc.1 e else acc.1
      let n := if e.event_type = EventType.down then acc.2 - 1 else acc.2
      (l, n)) (susp, n0)).1

/-- Embedding of `self.hotkey.steps[min(self.state, len(self.hotkey.steps)-1)]`.  The
source raises `IndexError` on an empty step list; the embedding returns a
dummy step in that (never-constructed) case. -/
def stepAt (hk : Hotkey) (st : Nat) : Step :=
  hk.steps.getD (min st (hk.steps.length - 1)) ⟨[], [], false, none⟩

/-- The flag `is_main_key` (line 604): membership of the event's scan code in the
standard step's main key, or in any key of a chord step. -/
def isMainKey (step : Step) (e : KeyboardEvent) : Bool :=
  if step.is_standard then
    e.scan_code ∈ (step.main_key.map Key.scan_codes).getD []
  else step.keys.any (fun k => e.scan_code ∈ k.scan_codes)

/-- The KEY_UP branch (lines 606-612): the release of a suspended key is
itself suspended; a release flagged for suppression is suppressed and
unflagged; any other release is ignored. -/
def hotkeyUpPhase (st : HookState) (e : KeyboardEvent) : HookState × List KeyboardEvent :=
  if e.scan_code ∈ st.suspended_events.map (fun s => s.scan_code) then
    ({ st with suspended_events := st.suspended_events ++ [e] }, [])
  else if e.scan_code ∈ st.scan_code_releases_to_suppress then
    ({ st with scan_code_releases_to_suppress :=
        st.scan_code_releases_to_suppress.erase e.scan_code }, [e])
  else (st, [])

/-- The matching branch (lines 615-637): apply the timeout reset, compute
the lookup chord, suspend the event, and when the chord can be resolved
consult the transition table and drop suspended events beyond the
useful-press budget. -/
def hotkeyMatchPhase (hk : Hotkey) (table : TransTable) (timeout : Int) (step : Step)
    (is_main : Bool) (st : HookState) (e : KeyboardEvent) (phys mods : Finset Int) :
    HookState × List KeyboardEvent :=
  let r := hotkeyTimeoutReset timeout e st.state st.suspended_events
  let input := if step.is_standard then sortChord (e.scan_code :: setList mods)
    else sortChord (setList phys)
  let susp1 := r.2 ++ [e]
  if step.is_standard ∨ step.keys.length ≤ phys.card ∨ ¬ is_main then
    let s1 := tlookup table r.1 input
    ({ st with state := s1, suspended_events := dropBeyondBudget susp1 (nUseful hk s1) }, [])
  else
    ({ st with state := r.1, suspended_events := susp1 }, [])

/-- The completion block (lines 639-652).  Note the source's condition
`(event.event_type == KEY_UP if self.trigger_on_release else KEY_DOWN)`:
when `trigger_on_release` is false the branch tests the truthy string
`KEY_DOWN`, i.e. no condition on the event type. -/
def hotkeyCompletionPhase (hk : Hotkey) (trigger_on_release : Bool)
    (cbResult : Option Decision) (log : Finset Int) (is_main : Bool) (e : KeyboardEvent)
    (mid : HookState × List KeyboardEvent) : HookState × List KeyboardEvent :=
  if mid.1.state = hk.steps.length ∧ is_main = true ∧
      (if trigger_on_release then e.event_type = EventType.up else True) then
    let acc :=
      if cbResult ≠ some ALLOW then
        mid.1.suspended_events.foldl
          (fun (acc : List KeyboardEvent × Finset Int) s =>
            let isLog := s.scan_code ∈ log
            let sup := if ¬(s.event_type = EventType.up ∧ isLog) then acc.1 ++ [s] else acc.1
            let rel :=
              if s.event_type = EventType.down ∧ ¬ isLog then insert s.scan_code acc.2
              else if s.event_type = EventType.up then acc.2.erase s.scan_code
              else acc.2
            (sup, rel)) (mid.2, mid.1.scan_code_releases_to_suppress)
      else (mid.2, mid.1.scan_code_releases_to_suppress)
    ({ state := 0, suspended_events := [], scan_code_releases_to_suppress := acc.2 }, acc.1)
  else mid

/-- Embedding of `_HotkeyHook.process_event` (lines 593-654): the new hook state and the
accumulated `events_to_suppress`.  The callback's return value (compared
by identity against `ALLOW` at line 640) is supplied as `cbResult`. -/
def hotkeyProcessEvent (msc : ModifierScanCodes) (hk : Hotkey) (table : TransTable)
    (timeout : Int) (trigger_on_release : Bool) (cbResult : Option Decision)
    (st : HookState) (e : KeyboardEvent) (phys log mods : Finset Int) :
    HookState × List KeyboardEvent :=
  let step := stepAt hk st.state
  let is_main := isMainKey step e
  let mid :=
    if e.event_type = EventType.up then hotkeyUpPhase st e
    else if e.scan_code ∈ msc ∧ step.is_standard = true then (st, [])
    else if st.state < hk.steps.length then
      hotkeyMatchPhase hk table timeout step is_main st e phys mods
    else (st, [])
  hotkeyCompletionPhase hk trigger_on_release cbResult log is_main e mid

/-- The decision map returned at line 654:
`{**{s: SUSPEND for s in suspended}, **{e: SUPPRESS for e in to_suppress}}`
(suppressions override suspensions; within a dict comprehension the last
write for equal keys wins, hence the reversals for a first-match lookup). -/
def hotkeyDecisionMap (susp toSuppress : List KeyboardEvent) : DecisionMap :=
  toSuppress.reverse.map (fun e => (e, SUPPRESS)) ++ susp.reverse.map (fun e => (e, SUSPEND))

/-- One call's inputs to `_HotkeyHook.process_event` as made by the
listener: the event, the listener's three key sets, and the value the
hook's callback returns if invoked on this call. -/
structure HookCallInput where
  event : KeyboardEvent
  phys : Finset Int
  log : Finset Int
  mods : Finset Int
  cbResult : Option Decision
deriving DecidableEq

/-- Running a freshly constructed `_HotkeyHook` (with its transition table
built at registration) over a sequence of calls; returns all hook states,
starting with the initial one. -/
def runHotkeyHook (msc : ModifierScanCodes) (hk : Hotkey) (timeout : Int)
    (trigger_on_release : Bool) (inputs : List HookCallInput) : List HookState :=
  let table := build_hotkey_transition_table hk
  (inputs.foldl
    (fun (acc : HookState × List HookState) inp =>
      let st' := (hotkeyProcessEvent msc hk table timeout trigger_on_release inp.cbResult
        acc.1 inp.event inp.phys inp.log inp.mods).1
      (st', acc.2 ++ [st'])) (initHookState, [initHookState])).2

/-! ## The simple hook variants -/

/-- Embedding of `_SimpleHook.process_event` (lines 527-529):
`{event: result if result in (ALLOW, SUSPEND, SUPPRESS) else ALLOW}`. -/
def simpleHookProcessEvent (cbResult : Option Decision) (e : KeyboardEvent) : DecisionMap :=
  [(e, match cbResult with
    | some d => d
    | none => ALLOW)]

/-- Embedding of `_KeyHook.process_event` (lines 540-545): when the scan code matches,
`{event: result if result in (ALLOW, SUPPRESS) else SUPPRESS}`; otherwise
`{event: ALLOW}` without invoking the callback. -/
def keyHookProcessEvent (scan_codes : List Int) (cbResult : Option Decision)
    (e : KeyboardEvent) : DecisionMap :=
  if e.scan_code ∈ scan_codes then
    [(e, match cbResult with
      | some ALLOW => ALLOW
      | some SUPPRESS => SUPPRESS
      | _ => SUPPRESS)]
  else [(e, ALLOW)]

/-! ## Key-name resolution and hotkey parsing -/

/-- The set `sided_modifiers` from `_canonical_names.py`. -/
def sided_modifiers : List String := ["ctrl", "alt", "shift", "windows"]

/-- Python `str.lower()` (per-character, which agrees on the ASCII key
names the library uses). -/
def strLower (s : String) : String :=
  String.mk (s.data.map Char.toLower)

/-- Python `name.replace("_", " ")` (a single-character replacement). -/
def strReplaceUnderscore (s : String) : String :=
  String.mk (s.data.map (fun c => if c = '_' then ' ' else c))

/-- The body of `normalize_name` on a non-empty string: lower-case names
longer than one character, replace underscores by spaces (except for the
name `"_"` itself), then look the result up in the canonical-name table
(the static dictionary `canonical_names`, passed as `canon`). -/
def normalizeCore (canon : String → Option String) (name : String) : String :=
  let n1 := if 1 < name.length then strLower name else name
  let n2 := if n1 ≠ "_" ∧ n1.data.contains '_' then strReplaceUnderscore n1 else n1
  (canon n2).getD n2

/-- Embedding of `normalize_name` from `_canonical_names.py`: raises on an empty name,
otherwise normalizes. -/
def normalize_name (canon : String → Option String) (name : String) : Except String String :=
  if name = "" then Except.error "Can only normalize non-empty string names"
  else Except.ok (normalizeCore canon name)

/-- A Python value accepted by `key_to_scan_codes`: a scan code, a key
name, or a (possibly nested) list of such values. -/
inductive KeyArg where
  | num (n : Int)
  | str (s : String)
  | keys (l : List KeyArg)

/-- Embedding of `key_to_scan_codes` (lines 664-693).  `mapName` embeds
`_os_keyboard.map_name`, with `Except.error` standing for the
`KeyError`/`ValueError` the OS layer may raise (caught at line 685).  The
`fuel` parameter bounds the recursion depth exactly as Python's recursion
limit does; the sided-modifier recursion of the real tables has depth 1. -/
def key_to_scan_codes (canon : String → Option String)
    (mapName : String → Except String (List (Int × List String))) :
    Nat → KeyArg → Bool → Except String (List Int)
  | 0, _, _ => Except.error "maximum recursion depth exceeded"
  | _ + 1, KeyArg.num n, _ => Except.ok [n]
  | fuel + 1, KeyArg.keys l, _ =>
      l.foldlM (fun acc k => do
        let t ← key_to_scan_codes canon mapName fuel k true
        pure (acc ++ t)) []
  | fuel + 1, KeyArg.str s, error_if_missing => do
      let normalized ← normalize_name canon s
      if normalized ∈ sided_modifiers then do
        let left ← key_to_scan_codes canon mapName fuel (KeyArg.str ("left " ++ normalized)) false
        let right ← key_to_scan_codes canon mapName fuel (KeyArg.str ("right " ++ normalized)) false
        pure (left ++ right.filter (fun c => c ∉ left))
      else
        let t := match mapName normalized with
          | Except.ok pairs => dedupKeepFirst (pairs.map (fun p => p.1))
          | Except.error _ => []
        if t = [] ∧ error_if_missing = true then
          Except.error "Key is not mapped to any known key"
        else Except.ok t

/-- The `Key.__init__` assertion: the scan-code list must be non-empty
(`assert self.scan_codes and ...`, an `AssertionError` otherwise). -/
def mkKey (label : Option String) (codes : List Int) : Except String Key :=
  if codes = [] then Except.error "assert: empty scan codes" else Except.ok ⟨label, codes⟩

/-- Splitting a character list on a separator character (all occurrences,
keeping empty chunks, like `str.split`). -/
def splitCharList (sep : Char) : List Char → List (List Char)
  | [] => [[]]
  | c :: rest =>
      if c = sep then [] :: splitCharList sep rest
      else
        match splitCharList sep rest with
        | [] => [[c]]
        | g :: gs => (c :: g) :: gs

/-- Dropping one leading whitespace character (the `\s?` of the split
patterns). -/
def dropLeadWS : List Char → List Char
  | c :: rest => if c.isWhitespace then rest else c :: rest
  | [] => []

/-- Dropping one trailing whitespace character. -/
def dropTrailWS (l : List Char) : List Char :=
  (dropLeadWS l.reverse).reverse

/-- Embedding of `re.split(r',\s?', hotkey)`: every match is a comma plus at most one
following whitespace character, so splitting on commas and dropping one
leading whitespace from every later chunk is equivalent. -/
def splitSteps (s : String) : List String :=
  ((splitCharList ',' s.data).mapIdx
    (fun i cs => if i = 0 then cs else dropLeadWS cs)).map (fun cs => String.mk cs)

/-- Embedding of `re.split(r'\s?\+\s?', step)`: every match is a plus with at most one
whitespace character on either side, so splitting on pluses and trimming
one whitespace on the delimiter sides is equivalent. -/
def splitKeys (s : String) : List String :=
  let gs := splitCharList '+' s.data
  (gs.mapIdx (fun i cs =>
    let cs1 := if i ≠ 0 then dropLeadWS cs else cs
    if i + 1 ≠ gs.length then dropTrailWS cs1 else cs1)).map (fun cs => String.mk cs)

/-- A Python value accepted by `parse_hotkey`: an already parsed `Hotkey`,
a scan code, a hotkey string, or a list (of key names/scan codes, or of
steps of keys of scan codes). -/
inductive HotkeyArg where
  | obj (h : Hotkey)
  | num (n : Int)
  | strArg (s : String)
  | listArg (l : List KeyArg)

/-- The label stored by `Key(k, ...)` for a list element `k` (only used by
`__repr__`; numbers are embedded as label-free). -/
def labelOf : KeyArg → Option String
  | KeyArg.str s => some s
  | _ => none

/-- Embedding of `parse_hotkey` (lines 724-758).  Failures of `key_to_scan_codes` and
of the `Key` assertion propagate as errors; the nested-list branch
requires the well-formed shape (each step a list of scan-code lists), any
other shape being a `TypeError`/`AssertionError` in the source. -/
def parse_hotkey (msc : ModifierScanCodes) (canon : String → Option String)
    (mapName : String → Except String (List (Int × List String))) (fuel : Nat) :
    HotkeyArg → Except String Hotkey
  | HotkeyArg.obj h => Except.ok h
  | HotkeyArg.num n => do
      let codes ← key_to_scan_codes canon mapName fuel (KeyArg.num n) true
      let key ← mkKey none codes
      Except.ok ⟨[mkStep msc [key]]⟩
  | HotkeyArg.strArg s =>
      if s.length = 1 then do
        let codes ← key_to_scan_codes canon mapName fuel (KeyArg.str s) true
        let key ← mkKey (some s) codes
        Except.ok ⟨[mkStep msc [key]]⟩
      else do
        let steps ← (splitSteps s).mapM (fun stepStr => do
          let keys ← (splitKeys stepStr).mapM (fun name => do
            let codes ← key_to_scan_codes canon mapName fuel (KeyArg.str name) true
            mkKey (some name) codes)
          pure (mkStep msc keys))
        Except.ok ⟨steps⟩
  | HotkeyArg.listArg l =>
      if l.length = 1 then do
        let codes ← key_to_scan_codes canon mapName fuel (KeyArg.keys l) true
        let key ← mkKey none codes
        Except.ok ⟨[mkStep msc [key]]⟩
      else if l.all (fun k => match k with | KeyArg.keys _ => false | _ => true) then do
        let keys ← l.mapM (fun k => do
          let codes ← key_to_scan_codes canon mapName fuel k true
          mkKey (labelOf k) codes)
        Except.ok ⟨[mkStep msc keys]⟩
      else do
        let steps ← l.mapM (fun stepArg =>
          match stepArg with
          | KeyArg.keys ks => do
              let keys ← ks.mapM (fun k =>
                match k with
                | KeyArg.keys codes => do
                    let codeInts ← codes.mapM (fun c =>
                      match c with
                      | KeyArg.num n => Except.ok n
                      | _ => Except.error "assert: scan code is not a number")
                    mkKey none codeInts
                | _ => Except.error "TypeError: key is not a scan code list")
              pure (mkStep msc keys)
          | _ => Except.error "TypeError: step is not a list")
        Except.ok ⟨steps⟩

/-- The hook object built and registered by `add_hotkey` (lines 656-662):
the parsed hotkey, the options, and the transition table built by
`_HotkeyHook.__init__`. -/
structure RegisteredHotkeyHook where
  hotkey : Hotkey
  timeout : Int
  trigger_on_release : Bool
  table : TransTable
deriving DecidableEq

/-- Embedding of `add_hotkey`: parse first, then construct and register the hook; a
parse failure propagates before any hook exists. -/
def add_hotkey (msc : ModifierScanCodes) (canon : String → Option String)
    (mapName : String → Except String (List (Int × List String))) (fuel : Nat)
    (arg : HotkeyArg) (timeout : Int) (trigger_on_release : Bool) :
    Except String RegisteredHotkeyHook := do
  let parsed ← parse_hotkey msc canon mapName fuel arg
  Except.ok ⟨parsed, timeout, trigger_on_release, build_hotkey_transition_table parsed⟩

/-! ## The serialized event record (`KeyboardEvent.to_json`) -/

/-- JSON values appearing in the wire record. -/
inductive JsonVal where
  | jnull
  | jstr (s : String)
  | jint (n : Int)
  | jbool (b : Bool)
  | jlist (l : List JsonVal)

/-- An optional string serialized as a string or `null`. -/
def jOptStr : Option String → JsonVal
  | none => JsonVal.jnull
  | some s => JsonVal.jstr s

/-- Embedding of `KeyboardEvent.to_json` (lines 46-61 of `_keyboard_event.py`): the
serialized dictionary, in the source's attribute order.  (`json.dumps`
renders this dictionary; the record contents are the dictionary itself.) -/
def KeyboardEvent.to_json (e : KeyboardEvent) : List (String × JsonVal) :=
  [("event_type", JsonVal.jstr (match e.event_type with
      | EventType.down => "down"
      | EventType.up => "up")),
   ("scan_code", JsonVal.jint e.scan_code),
   ("name", jOptStr e.name),
   ("time", JsonVal.jint e.time),
   ("device", jOptStr e.device),
   ("is_numpad", match e.is_numpad with
      | none => JsonVal.jnull
      | some b => JsonVal.jbool b),
   ("modifiers", JsonVal.jlist (e.modifiers.map JsonVal.jstr)),
   ("char", JsonVal.jstr e.char)]

/-- Embedding of `KeyboardEvent.__init__` (lines 25-44 of `_keyboard_event.py`): `time`
defaults to the current clock (`nowTime`), `modifiers or []`, and a
non-empty name is normalized. -/
def mkKeyboardEvent (canon : String → Option String) (nowTime : Int)
    (event_type : EventType) (scan_code : Int) (name : Option String) (time : Option Int)
    (device : Option String) (modifiers : Option (List String)) (is_numpad : Option Bool)
    (char : String) : KeyboardEvent :=
  { event_type := event_type
    scan_code := scan_code
    time := time.getD nowTime
    device := device
    is_numpad := is_numpad
    char := char
    modifiers := (modifiers.getD [])
    name := match name with
      | some n => if n = "" then none else some (normalizeCore canon n)
      | none => none }

/-- Lookup of a field in the wire record (consumers address fields by
name and ignore unknown fields). -/
def lookupField (rec : List (String × JsonVal)) (key : String) : Option JsonVal :=
  (rec.find? (fun p => p.1 = key)).map (fun p => p.2)

/-- Decoding a string-or-null field, a missing field counting as null. -/
def decodeStr : Option JsonVal → Except String (Option String)
  | none => Except.ok none
  | some JsonVal.jnull => Except.ok none
  | some (JsonVal.jstr s) => Except.ok (some s)
  | some _ => Except.error "expected string or null"

/-- Decoding a list-of-strings field. -/
def decodeStrList : Option JsonVal → Except String (Option (List String))
  | none => Except.ok none
  | some JsonVal.jnull => Except.ok none
  | some (JsonVal.jlist l) =>
      (l.mapM (fun v => match v with
        | JsonVal.jstr s => Except.ok s
        | _ => Except.error "expected string")).map some
  | some _ => Except.error "expected list"

/-- Parsing the wire record back into an event, as the source's round trip
does (`KeyboardEvent(**json.loads(event.to_json()))` in
`_keyboard_tests.py`): extract each known field by name, treating missing
optional fields as absent, and apply the constructor. -/
def parseEventRecord (canon : String → Option String) (nowTime : Int)
    (rec : List (String × JsonVal)) : Except String KeyboardEvent := do
  let et ← match lookupField rec "event_type" with
    | some (JsonVal.jstr "down") => Except.ok EventType.down
    | some (JsonVal.jstr "up") => Except.ok EventType.up
    | _ => Except.error "bad event_type"
  let sc ← match lookupField rec "scan_code" with
    | some (JsonVal.jint n) => Except.ok n
    | _ => Except.error "bad scan_code"
  let name ← decodeStr (lookupField rec "name")
  let time ← match lookupField rec "time" with
    | none => Except.ok none
    | some (JsonVal.jint n) => Except.ok (some n)
    | _ => Except.error "bad time"
  let device ← decodeStr (lookupField rec "device")
  let mods ← decodeStrList (lookupField rec "modifiers")
  let isnp ← match lookupField rec "is_numpad" with
    | none => Except.ok none
    | some JsonVal.jnull => Except.ok none
    | some (JsonVal.jbool b) => Except.ok (some b)
    | _ => Except.error "bad is_numpad"
  let ch ← match lookupField rec "char" with
    | none => Except.ok ""
    | some (JsonVal.jstr s) => Except.ok s
    | _ => Except.error "bad char"
  Except.ok (mkKeyboardEvent canon nowTime et sc name time device mods isnp ch)

/-! ## Concrete instances used by witnesses and counterexamples -/

/-- A key-down of scan code 1 at time 0. -/
def evCexDown : KeyboardEvent := ⟨EventType.down, 1, none, 0, none, [], none, ""⟩

/-- A key-up of an unrelated scan code long after the timeout. -/
def evCexUp : KeyboardEvent := ⟨EventType.up, 99, none, 1000, none, [], none, ""⟩

/-- A key-down exactly at the timeout boundary. -/
def evCexBoundary : KeyboardEvent := ⟨EventType.down, 99, none, 1, none, [], none, ""⟩

/-- A key-down of scan code 5 at time 0. -/
def evCex5 : KeyboardEvent := ⟨EventType.down, 5, none, 0, none, [], none, ""⟩

/-- The two-step hotkey `1, 2+3` (a standard one-key step followed by a
non-standard two-key chord step), with no modifier scan codes. -/
def hkCex : Hotkey := ⟨[mkStep ∅ [⟨some "a", [1]⟩], mkStep ∅ [⟨none, [2]⟩, ⟨none, [3]⟩]]⟩

/-- The transition table of `hkCex`. -/
def tblCex : TransTable := build_hotkey_transition_table hkCex

/-- A listener state with the replay re-entrancy guard set. -/
def replayingState : ListenerState := ⟨∅, ∅, ∅, [], true, []⟩

/-- A canonical-name table with no entries. -/
def noCanon : String → Option String := fun _ => none

/-- An OS name map that knows no keys at all. -/
def noMapName : String → Except String (List (Int × List String)) :=
  fun _ => Except.error "KeyError"

/-- A two-event down/up input sequence on scan code 5. -/
def evWitnessSeq : List KeyboardEvent :=
  [⟨EventType.down, 5, none, 0, none, [], none, ""⟩,
   ⟨EventType.up, 5, none, 1, none, [], none, ""⟩]

/-- Boundedness of every entry (and hence every lookup) of a transition
table. -/
def tableBounded (t : TransTable) (M : Nat) : Prop :=
  ∀ s c, tlookup t s c ≤ M

/-! ## Helper lemmas on the decision algebra -/

theorem dmax_allow_left (a : Decision) : dmax ALLOW a = a := by
  cases a <;> rfl

theorem dmax_allow_right (a : Decision) : dmax a ALLOW = a := by
  cases a <;> rfl

theorem dmax_assoc (a b c : Decision) : dmax (dmax a b) c = dmax a (dmax b c) := by
  revert a b c
  decide

theorem foldl_dmax_shift (l : List Decision) (a : Decision) :
    l.foldl dmax a = dmax a (l.foldl dmax ALLOW) := by
  induction l generalizing a with
  | nil => simp [dmax_allow_right]
  | cons b l ih =>
    simp only [List.foldl_cons]
    rw [ih (dmax a b), ih (dmax ALLOW b), dmax_allow_left, dmax_assoc]

theorem mergeDecisions_cons (d : Decision) (l : List Decision) :
    mergeDecisions (d :: l) = dmax d (mergeDecisions l) := by
  unfold mergeDecisions
  simp only [List.foldl_cons]
  rw [foldl_dmax_shift, dmax_allow_left]

theorem mergeDecisions_char (l : List Decision) :
    mergeDecisions l =
      if SUPPRESS ∈ l then SUPPRESS else if SUSPEND ∈ l then SUSPEND else ALLOW := by
  induction l with
  | nil => rfl
  | cons d l ih =>
    rw [mergeDecisions_cons, ih]
    cases d <;> simp [List.mem_cons] <;> split_ifs <;> rfl

theorem mergeDecisions_all_allow (l : List Decision) (h : ∀ d ∈ l, d = ALLOW) :
    mergeDecisions l = ALLOW := by
  rw [mergeDecisions_char]
  split_ifs with h1 h2
  · exact absurd (h _ h1) (by decide)
  · exact absurd (h _ h2) (by decide)
  · rfl

/-- Claim C2: the decision merge is the maximum under
`Allow(0) < Suspend(1) < Suppress(2)`; it is associative and commutative;
the merge of any collection of decisions is `Suppress` when one of them is
`Suppress`, else `Suspend` when one of them is `Suspend`, else `Allow`;
and a hook with no decision for the event contributes `Allow` (the empty
decision map reads as `Allow`). -/
theorem decision_merge_algebra :
    (∀ a b : Decision, (dmax a b).n = max a.n b.n) ∧
    (∀ a b c : Decision, dmax (dmax a b) c = dmax a (dmax b c)) ∧
    (∀ a b : Decision, dmax a b = dmax b a) ∧
    (∀ l : List Decision,
      mergeDecisions l =
        if SUPPRESS ∈ l then SUPPRESS else if SUSPEND ∈ l then SUSPEND else ALLOW) ∧
    (∀ e : KeyboardEvent, dget [] e = ALLOW) :=
  ⟨by decide, by decide, by decide, mergeDecisions_char, fun _ => rfl⟩

/-! ## C5: the single-key hook -/

/-- Claim C5, amended: `_KeyHook.process_event` triggers the callback only
when the event's scan code is among the fixed key's scan codes, and then
returns `{event: result}` when the result is `ALLOW` or `SUPPRESS` and
`{event: SUPPRESS}` for any other result (including `SUSPEND` and
non-decision values); for a non-matching scan code it returns
`{event: ALLOW}` independently of the callback. -/
theorem keyhook_decision_mapping (scs : List Int) (cb : Option Decision) (e : KeyboardEvent) :
    (e.scan_code ∈ scs →
      keyHookProcessEvent scs cb e =
        [(e, if cb = some ALLOW ∨ cb = some SUPPRESS then cb.getD SUPPRESS else SUPPRESS)]) ∧
    (e.scan_code ∉ scs →
      keyHookProcessEvent scs cb e = [(e, ALLOW)] ∧
      ∀ cb', keyHookProcessEvent scs cb e = keyHookProcessEvent scs cb' e) := by
  constructor
  · intro hmem
    unfold keyHookProcessEvent
    rw [if_pos hmem]
    rcases cb with _ | d
    · rfl
    · cases d <;> rfl
  · intro hmem
    unfold keyHookProcessEvent
    rw [if_neg hmem]
    exact ⟨rfl, fun cb' => by rw [if_neg hmem]⟩

theorem keyhook_decision_mapping_witness :
    ((5 : Int) ∈ [(5 : Int)] ∧
      keyHookProcessEvent [5] (some ALLOW) evCex5 = [(evCex5, ALLOW)]) ∧
    ((7 : Int) ∉ [(5 : Int)] ∧
      keyHookProcessEvent [5] (some SUPPRESS) ⟨EventType.down, 7, none, 0, none, [], none, ""⟩ =
        [(⟨EventType.down, 7, none, 0, none, [], none, ""⟩, ALLOW)]) := by
  refine ⟨⟨by decide, ?_⟩, ⟨by decide, ?_⟩⟩
  · rw [(keyhook_decision_mapping [5] (some ALLOW) evCex5).1 (by decide)]
    decide
  · exact ((keyhook_decision_mapping [5] (some SUPPRESS)
      ⟨EventType.down, 7, none, 0, none, [], none, ""⟩).2 (by decide)).1

/-- Counterexample to claim C5: on a matching event, a callback returning the
valid decision `SUSPEND` yields `{event: SUPPRESS}` — not
`{event: SUSPEND}` as the claim's "returns `{event: result}` if the result
is a valid Decision" requires, and not `{event: ALLOW}` as its fallback
clause requires; an invalid result likewise yields `{event: SUPPRESS}`. -/
theorem keyhook_fallback_counterexample :
    keyHookProcessEvent [5] (some SUSPEND) evCex5 = [(evCex5, SUPPRESS)] ∧
    keyHookProcessEvent [5] none evCex5 = [(evCex5, SUPPRESS)] ∧
    (5 : Int) ∈ [(5 : Int)] ∧
    [(evCex5, SUPPRESS)] ≠ [(evCex5, SUSPEND)] ∧
    [(evCex5, SUPPRESS)] ≠ [(evCex5, ALLOW)] := by
  decide

/-! ## C4: the replay re-entrancy guard -/

/-- Claim C4, amended: while the `replaying` guard is set,
`process_sync_event` returns `True` immediately, consults no hook (the
result does not depend on the hook decision maps), makes no driver calls,
and leaves `PhysicallyPressed`, `ActiveModifiers`, the suspended list and
the async queue unchanged — but it does update `LogicallyPressed`
according to the event type, because the final `ALLOW` block runs on this
path too. -/
theorem replay_guard_short_circuit (msc : ModifierScanCodes) (outs : List DecisionMap)
    (s : ListenerState) (e : KeyboardEvent) (h : s.is_replaying = true) :
    processSyncEvent msc outs s e =
      ({ s with logically_pressed_keys :=
          if e.event_type = EventType.down then insert e.scan_code s.logically_pressed_keys
          else s.logically_pressed_keys.erase e.scan_code },
        [Emission.passed e], true) := by
  simp [processSyncEvent, h]

theorem replay_guard_short_circuit_witness :
    processSyncEvent ∅ [[(evCex5, SUPPRESS)]] replayingState evCex5 =
      ({ replayingState with logically_pressed_keys := {5} }, [Emission.passed evCex5], true) := by
  rw [replay_guard_short_circuit ∅ [[(evCex5, SUPPRESS)]] replayingState evCex5 rfl]
  decide

/-- Counterexample to claim C4: with the guard set, processing a key-down does
mutate listener state: the scan code is added to `LogicallyPressed`,
contradicting the claim's "mutates no Listener state". -/
theorem replay_guard_updates_logical_counterexample :
    (processSyncEvent ∅ [] replayingState evCex5).1.logically_pressed_keys = {5} ∧
    replayingState.logically_pressed_keys = ∅ ∧
    ({5} : Finset Int) ≠ (∅ : Finset Int) ∧
    (processSyncEvent ∅ [] replayingState evCex5).2.2 = true := by
  decide

/-! ## C3: suspension is stored and reported as suppression -/

theorem runSyncHooks_binary (outs : List DecisionMap) (s : ListenerState) (e : KeyboardEvent) :
    (runSyncHooks outs s e).2.2 = ALLOW ∨ (runSyncHooks outs s e).2.2 = SUPPRESS := by
  unfold runSyncHooks
  cases hm : mergeAt outs e <;> simp [hm]

theorem runSyncHooks_suspend (outs : List DecisionMap) (s : ListenerState) (e : KeyboardEvent)
    (h : mergeAt outs e = SUSPEND) :
    (runSyncHooks outs s e).2.2 = SUPPRESS ∧
    (runSyncHooks outs s e).1.suspended_event_pairs =
      (resolveSuspended (if outs.isEmpty then [([] : DecisionMap)] else outs)
        s.suspended_event_pairs s.active_modifiers).1 ++ [(e, s.active_modifiers)] ∧
    (runSyncHooks outs s e).1.active_modifiers = s.active_modifiers := by
  unfold runSyncHooks
  rw [h]
  exact ⟨rfl, rfl, rfl⟩

/-- Claim C3: when the merged decision for the current event is `Suspend`,
`process_sync_event` appends the pair (event, copy of the current
`ActiveModifiers`) to the suspended list and reports suppression (`False`)
to the driver; and `run_sync_hooks` only ever returns the binary
`ALLOW`/`SUPPRESS`, never `SUSPEND`. -/
theorem suspend_is_stored_and_reported_suppress (msc : ModifierScanCodes)
    (outs : List DecisionMap) (s : ListenerState) (e : KeyboardEvent)
    (hrep : s.is_replaying = false) (hsus : mergeAt outs e = SUSPEND) :
    ((processSyncEvent msc outs s e).2.2 = false ∧
      ∃ rest, (processSyncEvent msc outs s e).1.suspended_event_pairs =
        rest ++ [(e, (processSyncEvent msc outs s e).1.active_modifiers)]) ∧
    (∀ outs' s' e', (runSyncHooks outs' s' e').2.2 = ALLOW ∨
      (runSyncHooks outs' s' e').2.2 = SUPPRESS) := by
  refine ⟨?_, runSyncHooks_binary⟩
  obtain ⟨h1, h2, h3⟩ := runSyncHooks_suspend outs (listenerPreUpdate msc s e) e hsus
  simp only [processSyncEvent, hrep, Bool.false_eq_true, if_false, h1]
  exact ⟨trivial, _, by rw [h2, h3]⟩

theorem suspend_is_stored_and_reported_suppress_witness :
    (processSyncEvent ∅ [[(evCex5, SUSPEND)]] initListenerState evCex5).2.2 = false ∧
    (processSyncEvent ∅ [[(evCex5, SUSPEND)]] initListenerState evCex5).1.suspended_event_pairs =
      [(evCex5, ∅)] :=
  ⟨(suspend_is_stored_and_reported_suppress ∅ [[(evCex5, SUSPEND)]] initListenerState evCex5 rfl
      (by decide)).1.1,
    by decide⟩

/-! ## C1: Allow-only hooks pass every event through unchanged -/

theorem setList_empty : setList ∅ = [] := rfl

theorem dget_const_allow (m : DecisionMap) (h : ∀ p ∈ m, p.2 = ALLOW) (e : KeyboardEvent) :
    dget m e = ALLOW := by
  unfold dget
  cases hf : List.find? (fun p => pyEq p.1 e) m with
  | none => rfl
  | some p => exact h p (List.mem_of_find?_eq_some hf)

theorem mergeAt_allow (outs : List DecisionMap) (e : KeyboardEvent)
    (h : ∀ m ∈ outs, ∀ e', dget m e' = ALLOW) : mergeAt outs e = ALLOW := by
  unfold mergeAt
  by_cases houts : outs.isEmpty
  · simp [houts, mergeDecisions, dget, dmax]
  · apply mergeDecisions_all_allow
    intro d hd
    simp only [houts, if_false, Bool.false_eq_true, List.mem_map] at hd
    obtain ⟨m, hm, rfl⟩ := hd
    exact h m hm e

theorem runSyncHooks_allow_empty (outs : List DecisionMap) (s : ListenerState)
    (e : KeyboardEvent) (hsusp : s.suspended_event_pairs = [])
    (hm : mergeAt outs e = ALLOW) :
    runSyncHooks outs s e = ({ s with is_replaying := false }, [], ALLOW) := by
  obtain ⟨phys, log, mods, susp, rep, q⟩ := s
  simp only at hsusp
  subst hsusp
  unfold runSyncHooks
  rw [hm]
  simp [resolveSuspended, Finset.sdiff_self, setList_empty]

theorem processSyncEvent_all_allow (msc : ModifierScanCodes) (outs : List DecisionMap)
    (s : ListenerState) (e : KeyboardEvent)
    (hrep : s.is_replaying = false) (hsusp : s.suspended_event_pairs = [])
    (hallow : ∀ m ∈ outs, ∀ e', dget m e' = ALLOW) :
    (processSyncEvent msc outs s e).2.2 = true ∧
    (processSyncEvent msc outs s e).2.1 = [Emission.passed e] ∧
    (processSyncEvent msc outs s e).1.suspended_event_pairs = [] ∧
    (processSyncEvent msc outs s e).1.is_replaying = false := by
  have hm := mergeAt_allow outs e hallow
  have hr := runSyncHooks_allow_empty outs (listenerPreUpdate msc s e) e
    (by simp [listenerPreUpdate, hsusp]) hm
  simp only [processSyncEvent, hrep, Bool.false_eq_true, if_false]
  rw [hr]
  simp [listenerPreUpdate, hsusp]

/-- Claim C1: starting from a state with no suspended events and the replay
guard clear (in particular, the fresh listener state), if every decision
map any suppressing hook returns on any call reads `Allow` for every
event, then every event of the input sequence is allowed (`True`), no
event is ever suspended, nothing is injected through the driver, and the
emitted (downstream) sequence is exactly the input sequence — no loss, no
duplication, no reordering. -/
theorem allow_only_hooks_preserve_stream (msc : ModifierScanCodes)
    (outs : Nat → List DecisionMap) (events : List KeyboardEvent) (i : Nat)
    (s : ListenerState)
    (hrep : s.is_replaying = false) (hsusp : s.suspended_event_pairs = [])
    (hallow : ∀ j, ∀ m ∈ outs j, ∀ e, dget m e = ALLOW) :
    (processSyncSeq msc outs i s events).2.2 = List.replicate events.length true ∧
    (processSyncSeq msc outs i s events).2.1 = events.map Emission.passed ∧
    (processSyncSeq msc outs i s events).1.suspended_event_pairs = [] := by
  induction events generalizing i s with
  | nil => exact ⟨rfl, rfl, hsusp⟩
  | cons e rest ih =>
    obtain ⟨h1, h2, h3, h4⟩ := processSyncEvent_all_allow msc (outs i) s e hrep hsusp (hallow i)
    obtain ⟨ih1, ih2, ih3⟩ := ih (i + 1) (processSyncEvent msc (outs i) s e).1 h4 h3
    simp [processSyncSeq, h1, h2, ih1, ih2, ih3, List.replicate_succ]

theorem allow_only_hooks_preserve_stream_witness :
    (processSyncSeq ∅ (fun _ => [[(evCex5, ALLOW)]]) 0 initListenerState evWitnessSeq).2.2 =
      [true, true] ∧
    (processSyncSeq ∅ (fun _ => [[(evCex5, ALLOW)]]) 0 initListenerState evWitnessSeq).2.1 =
      evWitnessSeq.map Emission.passed ∧
    (processSyncSeq ∅ (fun _ => [[(evCex5, ALLOW)]]) 0 initListenerState
      evWitnessSeq).1.suspended_event_pairs = [] := by
  have h := allow_only_hooks_preserve_stream ∅ (fun _ => [[(evCex5, ALLOW)]]) evWitnessSeq 0
    initListenerState rfl rfl
    (fun j m hm e => by
      simp only [List.mem_singleton] at hm
      subst hm
      exact dget_const_allow _ (by decide) e)
  exact ⟨by rw [h.1]; rfl, h.2.1, h.2.2⟩

/-! ## C6: the hotkey timeout reset -/

/-- Claim C6, amended: for every qualifying Down event (not a release, not
a modifier press during a standard step, current state below the step
count) with at least one suspended event, `_HotkeyHook.process_event`
routes through the matching branch, which applies the timeout reset before
any table lookup; the reset forces `currentState = 0` and clears
`suspendedEvents` if and only if the time elapsed since the most recent
suspended event is greater than *or equal to* the timeout (the source
compares with `>=`).  The comparison uses only event timestamps.  Up
events are routed through the release-pairing branch and never undergo the
timeout reset. -/
theorem hotkey_timeout_reset_spec (msc : ModifierScanCodes) (hk : Hotkey) (table : TransTable)
    (timeout : Int) (tor : Bool) (cb : Option Decision) (st : HookState) (e : KeyboardEvent)
    (phys log mods : Finset Int)
    (hdown : e.event_type = EventType.down)
    (hmod : ¬(e.scan_code ∈ msc ∧ (stepAt hk st.state).is_standard = true))
    (hst : st.state < hk.steps.length)
    (hsusp : st.suspended_events ≠ []) :
    (hotkeyProcessEvent msc hk table timeout tor cb st e phys log mods =
      hotkeyCompletionPhase hk tor cb log (isMainKey (stepAt hk st.state) e) e
        (hotkeyMatchPhase hk table timeout (stepAt hk st.state)
          (isMainKey (stepAt hk st.state) e) st e phys mods)) ∧
    (hotkeyTimeoutReset timeout e st.state st.suspended_events = (0, []) ↔
      timeout ≤ e.time - maxTime st.suspended_events) ∧
    (∀ (st' : HookState) (e' : KeyboardEvent), e'.event_type = EventType.up →
      hotkeyProcessEvent msc hk table timeout tor cb st' e' phys log mods =
        hotkeyCompletionPhase hk tor cb log (isMainKey (stepAt hk st'.state) e') e'
          (hotkeyUpPhase st' e')) := by
  refine ⟨?_, ?_, ?_⟩
  · simp only [hotkeyProcessEvent]
    rw [if_neg (by simp [hdown]), if_neg hmod, if_pos hst]
  · unfold hotkeyTimeoutReset
    constructor
    · intro h
      by_cases hc : st.suspended_events ≠ [] ∧ timeout ≤ e.time - maxTime st.suspended_events
      · exact hc.2
      · rw [if_neg hc] at h
        exact absurd (congrArg Prod.snd h) hsusp
    · intro h
      rw [if_pos ⟨hsusp, h⟩]
  · intro st' e' hup
    simp only [hotkeyProcessEvent]
    rw [if_pos hup]

theorem hotkey_timeout_reset_spec_witness :
    hotkeyTimeoutReset 1 evCexBoundary 1 [evCexDown] = (0, []) := by
  have h := hotkey_timeout_reset_spec ∅ hkCex tblCex 1 false (some SUPPRESS)
    ⟨1, [evCexDown], ∅⟩ evCexBoundary {99} ∅ ∅ rfl (by decide) (by decide) (by decide)
  exact h.2.1.mpr (by decide)

/-- Counterexample to claim C6: (1) an Up event arriving while the active step
is a non-standard chord, with elapsed time strictly exceeding the
timeout, leaves `currentState` and `suspendedEvents` untouched — the
claim requires them to be reset and cleared; (2) at elapsed time exactly
equal to the timeout (not strictly exceeding it) the code does force the
reset, against the claim's strict "exceeds". -/
theorem hotkey_timeout_counterexample :
    ((hotkeyProcessEvent ∅ hkCex tblCex 1 false (some SUPPRESS) ⟨1, [evCexDown], ∅⟩ evCexUp
        ∅ ∅ ∅).1 = ⟨1, [evCexDown], ∅⟩ ∧
      evCexUp.event_type = EventType.up ∧
      (stepAt hkCex 1).is_standard = false ∧
      1 < evCexUp.time - maxTime [evCexDown] ∧
      (1 : Nat) ≠ 0 ∧ [evCexDown] ≠ ([] : List KeyboardEvent)) ∧
    (hotkeyTimeoutReset 1 evCexBoundary 1 [evCexDown] = (0, []) ∧
      ¬(1 < evCexBoundary.time - maxTime [evCexDown])) := by
  decide

/-! ## C7: the transition table construction -/

theorem tlookup_twrite_self (t : TransTable) (s : Nat) (c : Chord) (v : Nat) :
    tlookup (twrite t s c v) s c = v := by
  unfold tlookup twrite
  rw [List.find?_cons_of_pos _ (by simp)]

theorem tlookup_twrite_ne (t : TransTable) (s' : Nat) (c' : Chord) (v : Nat) (s : Nat) (c : Chord)
    (h : (s', c') ≠ (s, c)) : tlookup (twrite t s' c' v) s c = tlookup t s c := by
  unfold tlookup twrite
  rw [List.find?_cons_of_neg _ (by simpa using h)]

theorem prodFold_keeps (inputs : List (List Int)) (t : TransTable) (i : Nat) (c : Chord)
    (h : tlookup t i c = i + 1) :
    tlookup (inputs.foldl (fun tt ics => twrite tt i (sortChord ics) (i + 1)) t) i c = i + 1 := by
  induction inputs generalizing t with
  | nil => exact h
  | cons a rest ih =>
    simp only [List.foldl_cons]
    apply ih
    by_cases hc : sortChord a = c
    · subst hc
      exact tlookup_twrite_self t i (sortChord a) (i + 1)
    · rw [tlookup_twrite_ne t i (sortChord a) (i + 1) i c (by simp [hc])]
      exact h

theorem prodFold_hits (inputs : List (List Int)) (t : TransTable) (i : Nat) (ch : List Int)
    (hmem : ch ∈ inputs) :
    tlookup (inputs.foldl (fun tt ics => twrite tt i (sortChord ics) (i + 1)) t) i
      (sortChord ch) = i + 1 := by
  induction inputs generalizing t with
  | nil => cases hmem
  | cons a rest ih =>
    simp only [List.foldl_cons]
    rcases List.mem_cons.mp hmem with rfl | hmem'
    · exact prodFold_keeps rest _ i (sortChord ch) (tlookup_twrite_self t i (sortChord ch) (i + 1))
    · exact ih _ hmem'

theorem prodFold_other (inputs : List (List Int)) (t : TransTable) (i : Nat) (s : Nat) (c : Chord)
    (h : s ≠ i) :
    tlookup (inputs.foldl (fun tt ics => twrite tt i (sortChord ics) (i + 1)) t) s c =
      tlookup t s c := by
  induction inputs generalizing t with
  | nil => rfl
  | cons a rest ih =>
    simp only [List.foldl_cons]
    rw [ih _, tlookup_twrite_ne _ _ _ _ _ _ (by simp [Ne.symm h])]

theorem overlapFold_other (prevs : List Chord) (history : List Chord) (t : TransTable) (i : Nat)
    (s : Nat) (c : Chord) (h : s ≠ i) :
    tlookup (prevs.foldl (fun tt prev => twrite tt i prev (overlapState tt history prev)) t) s c =
      tlookup t s c := by
  induction prevs generalizing t with
  | nil => rfl
  | cons a rest ih =>
    simp only [List.foldl_cons]
    rw [ih _, tlookup_twrite_ne _ _ _ _ _ _ (by simp [Ne.symm h])]

theorem buildTableAux_preserve (rest : List Step) (j : Nat) (t : TransTable)
    (history : List Chord) (s : Nat) (c : Chord) (h : s < j) :
    tlookup (buildTableAux j rest t history) s c = tlookup t s c := by
  induction rest generalizing j t history with
  | nil => rfl
  | cons stp rest' ih =>
    simp only [buildTableAux]
    rw [ih (j + 1) _ _ (Nat.lt_succ_of_lt h),
      prodFold_other _ _ _ _ _ (Nat.ne_of_lt h),
      overlapFold_other _ _ _ _ _ _ (Nat.ne_of_lt h)]

theorem buildTableAux_hits (rest : List Step) (j : Nat) (t : TransTable) (history : List Chord)
    (k : Nat) (stp : Step) (choice : List Int)
    (hstep : rest[k]? = some stp)
    (hch : choice ∈ prodLists (stp.keys.map Key.scan_codes)) :
    tlookup (buildTableAux j rest t history) (j + k) (sortChord choice) = j + k + 1 := by
  induction rest generalizing j t history k with
  | nil => simp at hstep
  | cons s0 rest' ih =>
    cases k with
    | zero =>
      simp only [List.getElem?_cons_zero, Option.some.injEq] at hstep
      subst hstep
      simp only [buildTableAux, Nat.add_zero]
      rw [buildTableAux_preserve _ _ _ _ _ _ (Nat.lt_succ_self j)]
      exact prodFold_hits _ _ _ _ hch
    | succ k' =>
      simp only [List.getElem?_cons_succ] at hstep
      simp only [buildTableAux]
      rw [show j + (k' + 1) = (j + 1) + k' by omega]
      exact ih (j + 1) _ _ k' hstep

/-- Claim C7: in the transition table built at registration, for each step
index `i`, every sorted tuple of scan codes obtained by taking one
representative from each Key of step `i` (an element of the Cartesian
product of the keys' scan-code lists) maps to state `i + 1`; and every
`(state, chord)` pair not written in the table maps to the default `0`. -/
theorem transition_table_spec (hk : Hotkey) (i : Nat) (stp : Step) (choice : List Int)
    (hstep : hk.steps[i]? = some stp)
    (hchoice : choice ∈ prodLists (stp.keys.map Key.scan_codes)) :
    tlookup (build_hotkey_transition_table hk) i (sortChord choice) = i + 1 ∧
    (∀ (s : Nat) (c : Chord),
      (∀ ent ∈ build_hotkey_transition_table hk, ent.1 ≠ (s, c)) →
      tlookup (build_hotkey_transition_table hk) s c = 0) := by
  constructor
  · have h := buildTableAux_hits hk.steps 0 [] [] i stp choice hstep hchoice
    simpa using h
  · intro s c h
    unfold tlookup
    rw [List.find?_eq_none.mpr (fun x hx => by simpa using h x hx)]

theorem transition_table_spec_witness :
    tlookup (build_hotkey_transition_table hkCex) 0 (sortChord [1]) = 1 ∧
    tlookup (build_hotkey_transition_table hkCex) 5 [9] = 0 := by
  have h := transition_table_spec hkCex 0 (mkStep ∅ [⟨some "a", [1]⟩]) [1]
    (by decide) (by decide)
  exact ⟨h.1, h.2 5 [9] (by decide)⟩

/-! ## C10: the hook state stays within bounds -/

theorem tableBounded_nil (M : Nat) : tableBounded [] M :=
  fun _ _ => Nat.zero_le M

theorem tableBounded_twrite (t : TransTable) (M : Nat) (s : Nat) (c : Chord) (v : Nat)
    (ht : tableBounded t M) (hv : v ≤ M) : tableBounded (twrite t s c v) M := by
  intro s' c'
  by_cases h : (s, c) = (s', c')
  · injection h with h1 h2
    subst h1
    subst h2
    rw [tlookup_twrite_self]
    exact hv
  · rw [tlookup_twrite_ne _ _ _ _ _ _ h]
    exact ht s' c'

theorem getFinalState_le (t : TransTable) (M : Nat) (ht : tableBounded t M) :
    ∀ (seq : List Chord) (st : Nat), st ≤ M → getFinalState t seq st ≤ M
  | [], _, h => h
  | c :: rest, st, _ => getFinalState_le t M ht rest (tlookup t st c) (ht st c)

theorem foldl_max_le (l : List Nat) (a M : Nat) (ha : a ≤ M) (hl : ∀ x ∈ l, x ≤ M) :
    l.foldl max a ≤ M := by
  induction l generalizing a with
  | nil => exact ha
  | cons b rest ih =>
    exact ih _ (max_le ha (hl b (List.mem_cons_self b rest))) (fun x hx => hl x (List.mem_cons_of_mem b hx))

theorem overlapState_le (t : TransTable) (M : Nat) (ht : tableBounded t M)
    (history : List Chord) (prev : Chord) : overlapState t history prev ≤ M := by
  unfold overlapState
  apply foldl_max_le _ _ _ (Nat.zero_le M)
  intro x hx
  simp only [List.mem_map] at hx
  obtain ⟨j, _, rfl⟩ := hx
  exact getFinalState_le t M ht _ 0 (Nat.zero_le M)

theorem overlapFold_bounded (prevs : List Chord) (history : List Chord) (t : TransTable)
    (i : Nat) (M : Nat) (ht : tableBounded t M) :
    tableBounded
      (prevs.foldl (fun tt prev => twrite tt i prev (overlapState tt history prev)) t) M := by
  induction prevs generalizing t with
  | nil => exact ht
  | cons a rest ih =>
    simp only [List.foldl_cons]
    exact ih _ (tableBounded_twrite _ _ _ _ _ ht (overlapState_le _ _ ht _ _))

theorem prodFold_bounded (inputs : List (List Int)) (t : TransTable) (i : Nat) (M : Nat)
    (ht : tableBounded t M) (hi : i + 1 ≤ M) :
    tableBounded (inputs.foldl (fun tt ics => twrite tt i (sortChord ics) (i + 1)) t) M := by
  induction inputs generalizing t with
  | nil => exact ht
  | cons a rest ih =>
    simp only [List.foldl_cons]
    exact ih _ (tableBounded_twrite _ _ _ _ _ ht hi)

theorem buildTableAux_bounded (rest : List Step) (j : Nat) (t : TransTable)
    (history : List Chord) (M : Nat) (ht : tableBounded t M) (hj : j + rest.length ≤ M) :
    tableBounded (buildTableAux j rest t history) M := by
  induction rest generalizing j t history with
  | nil => exact ht
  | cons s0 rest' ih =>
    simp only [List.length_cons] at hj
    simp only [buildTableAux]
    exact ih (j + 1) _ _
      (prodFold_bounded _ _ _ _ (overlapFold_bounded _ _ _ _ _ ht) (by omega)) (by omega)

theorem build_table_bounded (hk : Hotkey) :
    tableBounded (build_hotkey_transition_table hk) hk.steps.length :=
  buildTableAux_bounded hk.steps 0 [] [] _ (tableBounded_nil _) (by omega)

theorem hotkeyUpPhase_state (st : HookState) (e : KeyboardEvent) :
    (hotkeyUpPhase st e).1.state = st.state := by
  unfold hotkeyUpPhase
  split_ifs <;> rfl

theorem hotkeyTimeoutReset_fst_le (timeout : Int) (e : KeyboardEvent) (st : Nat)
    (susp : List KeyboardEvent) : (hotkeyTimeoutReset timeout e st susp).1 ≤ st := by
  unfold hotkeyTimeoutReset
  split_ifs
  · exact Nat.zero_le st
  · exact Nat.le_refl st

theorem hotkeyMatchPhase_state_le (hk : Hotkey) (table : TransTable) (timeout : Int)
    (stp : Step) (im : Bool) (st : HookState) (e : KeyboardEvent) (phys mods : Finset Int)
    (M : Nat) (ht : tableBounded table M) (hst : st.state ≤ M) :
    (hotkeyMatchPhase hk table timeout stp im st e phys mods).1.state ≤ M := by
  simp only [hotkeyMatchPhase]
  split
  · exact ht _ _
  · exact le_trans (hotkeyTimeoutReset_fst_le _ _ _ _) hst

theorem hotkeyCompletionPhase_state_le (hk : Hotkey) (tor : Bool) (cb : Option Decision)
    (log : Finset Int) (im : Bool) (e : KeyboardEvent) (mid : HookState × List KeyboardEvent)
    (M : Nat) (h : mid.1.state ≤ M) :
    (hotkeyCompletionPhase hk tor cb log im e mid).1.state ≤ M := by
  simp only [hotkeyCompletionPhase]
  split <;> split
  · exact Nat.zero_le M
  · exact h
  · exact Nat.zero_le M
  · exact h

theorem hotkeyProcessEvent_state_le (msc : ModifierScanCodes) (hk : Hotkey) (table : TransTable)
    (timeout : Int) (tor : Bool) (cb : Option Decision) (st : HookState) (e : KeyboardEvent)
    (phys log mods : Finset Int) (M : Nat) (ht : tableBounded table M) (hst : st.state ≤ M) :
    (hotkeyProcessEvent msc hk table timeout tor cb st e phys log mods).1.state ≤ M := by
  simp only [hotkeyProcessEvent]
  apply hotkeyCompletionPhase_state_le
  split
  · rw [hotkeyUpPhase_state]
    exact hst
  · split
    · exact hst
    · split
      · exact hotkeyMatchPhase_state_le _ _ _ _ _ _ _ _ _ _ ht hst
      · exact hst

theorem runHotkeyHook_fold_le (msc : ModifierScanCodes) (hk : Hotkey) (timeout : Int)
    (tor : Bool) (inputs : List HookCallInput) (acc : HookState × List HookState)
    (h1 : acc.1.state ≤ hk.steps.length)
    (h2 : ∀ st ∈ acc.2, st.state ≤ hk.steps.length) :
    ∀ st ∈ (inputs.foldl
      (fun (acc : HookState × List HookState) inp =>
        let st' := (hotkeyProcessEvent msc hk (build_hotkey_transition_table hk) timeout tor
          inp.cbResult acc.1 inp.event inp.phys inp.log inp.mods).1
        (st', acc.2 ++ [st'])) acc).2, st.state ≤ hk.steps.length := by
  induction inputs generalizing acc with
  | nil => exact h2
  | cons inp rest ih =>
    simp only [List.foldl_cons]
    apply ih
    · exact hotkeyProcessEvent_state_le _ _ _ _ _ _ _ _ _ _ _ _ (build_table_bounded hk) h1
    · intro st hst
      rcases List.mem_append.mp hst with h | h
      · exact h2 st h
      · simp only [List.mem_singleton] at h
        subst h
        exact hotkeyProcessEvent_state_le _ _ _ _ _ _ _ _ _ _ _ _ (build_table_bounded hk) h1

/-- Claim C10: running a freshly registered `_HotkeyHook` over any sequence
of calls, every hook state (initial and after each call) has
`state ≤ N` where `N` is the number of steps; consequently, when the step
list is non-empty, the index `min(state, N-1)` used for the step lookup at
the start of each call is in bounds. -/
theorem hotkey_state_bounded (msc : ModifierScanCodes) (hk : Hotkey) (timeout : Int)
    (tor : Bool) (inputs : List HookCallInput) :
    (∀ st ∈ runHotkeyHook msc hk timeout tor inputs, st.state ≤ hk.steps.length) ∧
    (hk.steps ≠ [] → ∀ st ∈ runHotkeyHook msc hk timeout tor inputs,
      min st.state (hk.steps.length - 1) < hk.steps.length) := by
  have hall : ∀ st ∈ runHotkeyHook msc hk timeout tor inputs, st.state ≤ hk.steps.length := by
    simp only [runHotkeyHook]
    apply runHotkeyHook_fold_le msc hk timeout tor inputs _ (Nat.zero_le _)
    intro st h
    simp only [List.mem_singleton] at h
    subst h
    exact Nat.zero_le _
  refine ⟨hall, fun hne st hmem => ?_⟩
  have h1 := Nat.min_le_right st.state (hk.steps.length - 1)
  have h2 : 0 < hk.steps.length := List.length_pos.mpr hne
  omega

theorem hotkey_state_bounded_witness :
    (initHookState.state ≤ hkCex.steps.length) ∧
    min initHookState.state (hkCex.steps.length - 1) < hkCex.steps.length := by
  have h := hotkey_state_bounded ∅ hkCex 1 false []
  exact ⟨h.1 initHookState (by decide), h.2 (by decide) initHookState (by decide)⟩

/-! ## C8: unknown key names fail at parse time -/

theorem except_bind_isOk_false {α β : Type} (m : Except String α) (g : α → Except String β)
    (h : m.isOk = false) : (m >>= g).isOk = false := by
  cases m with
  | error e => rfl
  | ok v => simp [Except.isOk, Except.toBool] at h

theorem exceptMapM_isOk_false {α β : Type} (f : α → Except String β) (l : List α) (x : α)
    (hx : x ∈ l) (hf : (f x).isOk = false) : (l.mapM f).isOk = false := by
  induction l with
  | nil => cases hx
  | cons a rest ih =>
    rw [List.mapM_cons]
    cases hfa : f a with
    | error e => rfl
    | ok v =>
      rcases List.mem_cons.mp hx with rfl | hmem
      · rw [hfa] at hf
        simp [Except.isOk, Except.toBool] at hf
      · show ((List.mapM f rest) >>= fun bs => pure (v :: bs)).isOk = false
        exact except_bind_isOk_false _ _ (ih hmem)

/-- Claim C8, amended: for every hotkey given as a string, a key name that
is not mapped to any known key (`key_to_scan_codes` raises) makes
`parse_hotkey` fail with an error, and `add_hotkey` fail before
constructing or registering any hook.  A single-character string is itself
the one key name of the specification (the `len(hotkey) == 1` branch of
`parse_hotkey`); for any other string the key names are those produced by
the step/key splitting.  (A hotkey given as a raw integer scan code, in
contrast, is accepted without any lookup — see the counterexample.) -/
theorem unknown_key_name_fails_fast (msc : ModifierScanCodes) (canon : String → Option String)
    (mapName : String → Except String (List (Int × List String))) (fuel : Nat)
    (s stepStr name : String) (timeout : Int) (tor : Bool) :
    (s.length = 1 →
      (key_to_scan_codes canon mapName fuel (KeyArg.str s) true).isOk = false →
      (parse_hotkey msc canon mapName fuel (HotkeyArg.strArg s)).isOk = false ∧
      (add_hotkey msc canon mapName fuel (HotkeyArg.strArg s) timeout tor).isOk = false) ∧
    (s.length ≠ 1 →
      stepStr ∈ splitSteps s → name ∈ splitKeys stepStr →
      (key_to_scan_codes canon mapName fuel (KeyArg.str name) true).isOk = false →
      (parse_hotkey msc canon mapName fuel (HotkeyArg.strArg s)).isOk = false ∧
      (add_hotkey msc canon mapName fuel (HotkeyArg.strArg s) timeout tor).isOk = false) := by
  constructor
  · intro hlen hfail
    have hp : (parse_hotkey msc canon mapName fuel (HotkeyArg.strArg s)).isOk = false := by
      simp only [parse_hotkey]
      rw [if_pos hlen]
      exact except_bind_isOk_false _ _ hfail
    exact ⟨hp, by simp only [add_hotkey]; exact except_bind_isOk_false _ _ hp⟩
  · intro hlen hstep hname hfail
    have hp : (parse_hotkey msc canon mapName fuel (HotkeyArg.strArg s)).isOk = false := by
      simp only [parse_hotkey]
      rw [if_neg hlen]
      apply except_bind_isOk_false
      apply exceptMapM_isOk_false _ _ stepStr hstep
      apply except_bind_isOk_false
      apply exceptMapM_isOk_false _ _ name hname
      apply except_bind_isOk_false
      exact hfail
    exact ⟨hp, by simp only [add_hotkey]; exact except_bind_isOk_false _ _ hp⟩

theorem unknown_key_name_fails_fast_witness :
    ((parse_hotkey ∅ noCanon noMapName 16 (HotkeyArg.strArg "q")).isOk = false ∧
      (add_hotkey ∅ noCanon noMapName 16 (HotkeyArg.strArg "q") 1 false).isOk = false) ∧
    ((parse_hotkey ∅ noCanon noMapName 16 (HotkeyArg.strArg "a, b")).isOk = false ∧
      (add_hotkey ∅ noCanon noMapName 16 (HotkeyArg.strArg "a, b") 1 false).isOk = false) :=
  ⟨(unknown_key_name_fails_fast ∅ noCanon noMapName 16 "q" "q" "q" 1 false).1
      (by decide) (by decide),
    (unknown_key_name_fails_fast ∅ noCanon noMapName 16 "a, b" "a" "a" 1 false).2
      (by decide) (by decide) (by decide) (by decide)⟩

/-- Counterexample to claim C8: with an OS name map that knows no keys at all
(so no scan code is mapped to any known key), a hotkey specification given
as the raw scan code `999999` parses and registers successfully — the
claim's "parsing fails with a lookup error" does not hold for unmapped
scan codes, which are accepted without any lookup. -/
theorem raw_scan_code_accepted_counterexample :
    (parse_hotkey ∅ noCanon noMapName 16 (HotkeyArg.num 999999)).isOk = true ∧
    (add_hotkey ∅ noCanon noMapName 16 (HotkeyArg.num 999999) 1 false).isOk = true ∧
    (∀ nm : String, noMapName nm = Except.error "KeyError") :=
  ⟨by decide, by decide, fun _ => rfl⟩

/-! ## C9: the serialized event record round trip -/

theorem mapM_jstr (l : List String) :
    (l.map JsonVal.jstr).mapM (fun v => match v with
      | JsonVal.jstr s => Except.ok s
      | _ => Except.error "expected string") = Except.ok l := by
  induction l with
  | nil => rfl
  | cons a rest ih =>
    rw [List.map_cons, List.mapM_cons, ih]
    rfl

theorem decode_to_json_modifiers (e : KeyboardEvent) :
    decodeStrList (lookupField e.to_json "modifiers") = Except.ok (some e.modifiers) := by
  rw [show lookupField e.to_json "modifiers" =
      some (JsonVal.jlist (e.modifiers.map JsonVal.jstr)) from rfl]
  simp only [decodeStrList, mapM_jstr]
  rfl

theorem parseEventRecord_to_json (canon : String → Option String) (nowTime : Int)
    (e : KeyboardEvent) :
    parseEventRecord canon nowTime e.to_json =
      Except.ok (mkKeyboardEvent canon nowTime e.event_type e.scan_code e.name (some e.time)
        e.device (some e.modifiers) e.is_numpad e.char) := by
  simp only [parseEventRecord, decode_to_json_modifiers]
  obtain ⟨et, sc, nm, tm, dev, mods, inp, ch⟩ := e
  cases et <;> cases nm <;> cases dev <;> cases inp <;> rfl

/-- Claim C9, amended: the wire record has exactly the fields
`{event_type, scan_code, name, time, device, is_numpad, modifiers, char}`
(there is no `is_keypad` field); parsing the record back through the
constructor, as the source's round trip does, yields an event equal to
the original in every field — in particular in all the fields
`__eq__` compares (event type, scan code, name, time, device) — provided
the original's name is already in canonical form (as any name stored by
the constructor is). -/
theorem event_record_roundtrip (canon : String → Option String) (nowTime : Int)
    (e : KeyboardEvent)
    (hname : ∀ n, e.name = some n → n ≠ "" ∧ normalizeCore canon n = n) :
    parseEventRecord canon nowTime e.to_json = Except.ok e ∧
    (e.to_json).map Prod.fst =
      ["event_type", "scan_code", "name", "time", "device", "is_numpad", "modifiers", "char"] := by
  refine ⟨?_, rfl⟩
  rw [parseEventRecord_to_json]
  congr 1
  obtain ⟨et, sc, nm, tm, dev, mods, inp, ch⟩ := e
  cases nm with
  | none => rfl
  | some n =>
    obtain ⟨hne, hnorm⟩ := hname n rfl
    simp [mkKeyboardEvent, hne, hnorm]

theorem event_record_roundtrip_witness :
    parseEventRecord noCanon 0 (KeyboardEvent.to_json
      ⟨EventType.down, 25, some "p", 999, some "dev0", ["shift"], some false, "p"⟩) =
      Except.ok ⟨EventType.down, 25, some "p", 999, some "dev0", ["shift"], some false, "p"⟩ :=
  (event_record_roundtrip noCanon 0 _ (fun n h => by
    injection h with h'
    subst h'
    exact ⟨by decide, by decide⟩)).1

/-- Counterexample to claim C9: the wire record's field names are
`event_type, scan_code, name, time, device, is_numpad, modifiers, char` —
the claim's field set `{event_type, scan_code, name, time, is_keypad}` is
wrong: there is no `is_keypad` field (the source serializes `is_numpad`),
and `device`, `modifiers` and `char` are also serialized. -/
theorem wire_record_field_names_counterexample :
    (KeyboardEvent.to_json evCex5).map Prod.fst =
      ["event_type", "scan_code", "name", "time", "device", "is_numpad", "modifiers", "char"] ∧
    "is_keypad" ∉ (KeyboardEvent.to_json evCex5).map Prod.fst := by
  decide
